import Mathlib

/-!
Verification development for nixseparatedebuginfod2.

The Rust source is embedded shallowly:
* strings are lists of Unicode scalar values / bytes (`List Nat`);
* `std::path::Path` values are lists of components as Rust's `components()`
  yields them (normalized: no repeated separators, interior `.` removed);
* fallible code returns `Option`/`Except`;
* the filesystem and async I/O are abstracted by explicit state passing.
-/

set_option autoImplicit false

namespace Nsdi

/-! ## Byte and string helpers -/

/-- ASCII lowercasing of one byte, as Rust's `make_ascii_lowercase`. -/
def toLowerByte (b : Nat) : Nat := if 65 ≤ b ∧ b ≤ 90 then b + 32 else b

/-- ASCII lowercasing of a string, as Rust's `str::to_lowercase` restricted to
ASCII input (all inputs we apply it to are ASCII hex digits). -/
def toLowerStr (s : List Nat) : List Nat := s.map toLowerByte

/-- Rust's `char::is_ascii_hexdigit`. -/
def isAsciiHexDigitB (c : Nat) : Bool :=
  (48 ≤ c && c ≤ 57) || (97 ≤ c && c ≤ 102) || (65 ≤ c && c ≤ 70)

/-- Rust's `u8::is_ascii`. -/
def isAsciiB (c : Nat) : Bool := c < 128

/-- The scalar values of a Lean string literal (for ASCII literals these are
exactly the UTF-8 bytes). -/
def bytesOf (s : String) : List Nat := s.toList.map Char.toNat

/-- Boolean component-prefix test used to model Rust's component-wise
`Path::starts_with` / `Path::strip_prefix`. -/
def listLeads {β : Type} [DecidableEq β] : List β → List β → Bool
  | [], _ => true
  | _ :: _, [] => false
  | a :: as, b :: bs => if a = b then listLeads as bs else false

/-! ## Build IDs (`src/build_id.rs`)

A `BuildId` wraps the validated string; we represent the wrapped value by the
string itself.  `BuildId::new` first scans for a non-hex-digit character and
then checks the length; `Display` prints the stored string unchanged. -/

/-- Model of `BuildId::new`.  (Rust checks `str.len() != 40` in bytes; every
string passing the hex-digit scan is ASCII, where bytes and scalar values
coincide, and any other string is already rejected by the scan.) -/
def BuildId.new (s : List Nat) : Option (List Nat) :=
  if s.any (fun c => !isAsciiHexDigitB c) then none
  else if s.length ≠ 40 then none
  else some s

/-- Model of `impl Display for BuildId`: prints the stored string unchanged. -/
def BuildId.format (b : List Nat) : List Nat := b

/-- Byte-slice `s[a..b]` with the bounds check Rust performs (panic modeled as
`none`).  In the scalar model char-boundary checks are trivial. -/
def strSlice (s : List Nat) (a b : Nat) : Option (List Nat) :=
  if a ≤ b ∧ b ≤ s.length then some ((s.drop a).take (b - a)) else none

/-- Model of `BuildId::in_debug_output`: `lib/debug/.build-id/{first two
chars}/{rest}.{extension}`; the two slicings are modeled as checked. -/
def BuildId.in_debug_output (b : List Nat) (ext : List Nat) : Option (List Nat) :=
  match strSlice b 0 2, strSlice b 2 b.length with
  | some hd, some tl => some (bytesOf "lib/debug/.build-id/" ++ hd ++ [47] ++ tl ++ [46] ++ ext)
  | _, _ => none

/-! ## Store paths (`src/store_path.rs`)

A `Path` handed to `StorePath::new` is modeled as the list of components
Rust's `components()` yields: a possible leading root directory, then normal
names (arbitrary byte strings), `..`, or a leading `.`. -/

/-- One component of a `std::path::Path`, as produced by `components()`. -/
inductive PathComp : Type where
  | rootDir : PathComp
  | curDir : PathComp
  | parentDir : PathComp
  | normal : List Nat → PathComp
deriving DecidableEq

/-- The components of the constant `NIX_STORE = "/nix/store"`. -/
def nixStoreComps : List PathComp :=
  [PathComp.rootDir, PathComp.normal (bytesOf "nix"), PathComp.normal (bytesOf "store")]

/-- `HASH_LEN = 32`. -/
def HASH_LEN : Nat := 32

/-- Model of `StorePath::new`: requires the component-wise prefix
`/nix/store`, a fourth component (index 3, the root directory counting as a
component) that is a normal name, name byte-length at least `HASH_LEN + 2`,
and an ASCII first `HASH_LEN` bytes.  The validated path itself is returned. -/
def StorePath.new (p : List PathComp) : Option (List PathComp) :=
  if listLeads nixStoreComps p then
    match p[3]? with
    | some (PathComp.normal name) =>
      if HASH_LEN + 2 ≤ name.length then
        if (name.take HASH_LEN).all isAsciiB then some p else none
      else none
    | _ => none
  else none

/-- Model of `StorePath::name`: the fourth component; the code's
`unreachable!()` arm is modeled as `none`. -/
def StorePath.name (p : List PathComp) : Option (List Nat) :=
  match p[3]? with
  | some (PathComp.normal name) => some name
  | _ => none

/-- Model of `StorePath::hash`: the first `HASH_LEN` bytes of the name.  The
byte slice panics when the name is shorter than `HASH_LEN`, and the
`from_utf8` unwrap fails on invalid UTF-8; both are modeled as `none` (we use
the stronger ASCII condition, which is what the constructor established). -/
def StorePath.hash (p : List PathComp) : Option (List Nat) :=
  match StorePath.name p with
  | none => none
  | some name =>
    if HASH_LEN ≤ name.length ∧ (name.take HASH_LEN).all isAsciiB then
      some (name.take HASH_LEN)
    else none

/-- Component-wise `Path::strip_prefix` (an error is `none`). -/
def stripComps (pre p : List PathComp) : Option (List PathComp) :=
  if listLeads pre p then some (p.drop pre.length) else none

/-- Model of `StorePath::relative`: strip `/nix/store`, then strip the name;
the two `unwrap`s are modeled as `none` on failure. -/
def StorePath.relative (p : List PathComp) : Option (List PathComp) :=
  match stripComps nixStoreComps p with
  | none => none
  | some rest =>
    match StorePath.name p with
    | none => none
    | some name => stripComps [PathComp.normal name] rest

/-- The fourth-component shape the spec claims: 32 hexadecimal characters,
then a dash, then a nonempty suffix.  This follows the spec's words, for
comparison with `StorePath.new`. -/
def specStoreNameOk (name : List Nat) : Bool :=
  HASH_LEN + 2 ≤ name.length && (name.take HASH_LEN).all isAsciiHexDigitB
    && name[HASH_LEN]? == some 45

/-! ## `demangle` (`src/store_path.rs`), byte-level

`demangle` operates on the raw bytes of the path.  `storepath.starts_with(NIX_STORE)`
is Rust's component-wise check; on the canonical byte spellings modeled here
(no repeated separators, no interior `.`) it is equivalent to the byte test
below. -/

/-- The bytes of `NIX_STORE = "/nix/store"` (10 bytes). -/
def nixStoreBytes : List Nat := bytesOf "/nix/store"

/-- Byte-level model of `storepath.starts_with(NIX_STORE)` for canonical
paths: the 10 bytes `/nix/store` followed by nothing or by `/` (byte 47). -/
def bStartsStore (p : List Nat) : Bool :=
  nixStoreBytes.isPrefixOf p && (p.length = 10 || p[10]? == some 47)

/-- Lowercase the bytes whose absolute index lies in `[11, 43)`, the current
index being `i`: the slice `as_bytes[len.min(10 + 1)..len.min(10 + 1 + 32)]`
on which the code calls `make_ascii_lowercase` (clamping is automatic). -/
def lowerFrom (i : Nat) : List Nat → List Nat
  | [] => []
  | b :: t => (if 11 ≤ i ∧ i < 43 then toLowerByte b else b) :: lowerFrom (i + 1) t

/-- Model of `demangle`. -/
def demangle (p : List Nat) : List Nat :=
  if bStartsStore p then lowerFrom 0 p else p

/-! ## Source selection (`src/source_selection.rs`)

`Path::iter()` yields the path's components; we model both the candidate and
the reference as lists of components over an arbitrary type with decidable
equality. -/

section SourceSelection

variable {α : Type} [DecidableEq α]

/-- `iter().zip(...).position(|(c, t)| c != t)`: index of the first
disagreeing pair of the zip (`none` when the zipped part fully agrees). -/
def firstNe : List α → List α → Option Nat
  | a :: as, b :: bs => if a = b then (firstNe as bs).map (· + 1) else some 0
  | _, _ => none

/-- Model of `matching_measure`: position of the first mismatch scanning both
paths from the end, defaulting to the candidate's component count. -/
def matching_measure (cand ref : List α) : Nat :=
  (firstNe cand.reverse ref.reverse).getD cand.length

/-- Number of leading components on which two lists agree. -/
def agreeFwd : List α → List α → Nat
  | a :: as, b :: bs => if a = b then agreeFwd as bs + 1 else 0
  | _, _ => 0

/-- The match-measure as the spec words it: the number of trailing components
on which candidate and reference agree (the cap at `len(C)` is automatic when
the candidate is a suffix of the reference).  Follows the spec's words, for
comparison with `matching_measure`. -/
def specMeasure (cand ref : List α) : Nat := agreeFwd cand.reverse ref.reverse

/-- `Iterator::max` on a list of measures (for equal `Nat` values, which of
the equally-maximal elements Rust returns is unobservable). -/
def listMax : List Nat → Option Nat
  | [] => none
  | x :: xs => some (xs.foldl Nat.max x)

/-- Model of `best_matching_measure`: rank all candidates, take the maximal
measure, keep the candidates attaining it, error (naming them) unless exactly
one remains. -/
def best_matching_measure (cands : List (List α)) (ref : List α) :
    Except (List (List α)) (Option (List α)) :=
  let ranked := cands.map (fun c => (matching_measure c ref, c))
  match listMax (ranked.map (fun mc => mc.1)) with
  | none => Except.ok none
  | some best =>
    let equals := ranked.filterMap (fun mc => if mc.1 = best then some mc.2 else none)
    match equals with
    | [e] => Except.ok (some e)
    | es => Except.error es

/-- The selection the spec describes: the candidate with maximal measure wins;
a tie is an ambiguity error naming all tied candidates.  Follows the spec's
words, for comparison with `best_matching_measure`. -/
def specBest (cands : List (List α)) (ref : List α) :
    Except (List (List α)) (Option (List α)) :=
  match cands with
  | [] => Except.ok none
  | _ =>
    match cands.filter
        (fun c => cands.all (fun d => matching_measure d ref ≤ matching_measure c ref)) with
    | [w] => Except.ok (some w)
    | ws => Except.error ws

end SourceSelection

/-! ## Presence and the multiplexing substituter (`src/utils.rs`,
`src/substituter/mod.rs`, `src/substituter/multiplex.rs`) -/

/-- `utils::Presence`. -/
inductive Presence : Type where
  | Found : Presence
  | NotFound : Presence
deriving DecidableEq

/-- `substituter::Priority`; the derived `Ord` orders by declaration order. -/
inductive Priority : Type where
  | LocalUnpacked : Priority
  | Local : Priority
  | Unknown : Priority
  | Remote : Priority
deriving DecidableEq

/-- Declaration-order rank realizing the derived `Ord` on `Priority`. -/
def prioVal : Priority → Nat
  | Priority.LocalUnpacked => 0
  | Priority.Local => 1
  | Priority.Unknown => 2
  | Priority.Remote => 3

section Multiplex

variable {ε : Type}

/-- The outcome one constituent substituter produces for the request at hand
(`anyhow::Result<Presence>`). -/
inductive SubRes (ε : Type) : Type where
  | found : SubRes ε
  | notFound : SubRes ε
  | fails : ε → SubRes ε
deriving DecidableEq

/-- A constituent substituter, abstracted to its priority and its outcome for
the one request under consideration. -/
structure Constituent (ε : Type) : Type where
  prio : Priority
  res : SubRes ε
deriving DecidableEq

/-- Insert after all elements of equal key: one step of the stable
`sort_by_key(|s| s.priority())`. -/
def insertByPrio (c : Constituent ε) : List (Constituent ε) → List (Constituent ε)
  | [] => [c]
  | d :: t => if prioVal d.prio ≤ prioVal c.prio then d :: insertByPrio c t else c :: d :: t

/-- Model of the sorting performed by `MultiplexingSubstituter::new` (stable
sort ascending by priority). -/
def sortByPrio : List (Constituent ε) → List (Constituent ε)
  | [] => []
  | c :: t => insertByPrio c (sortByPrio t)

/-- Result of the multiplexer (`anyhow::Result<Presence>`). -/
inductive MuxRes (ε : Type) : Type where
  | found : MuxRes ε
  | notFound : MuxRes ε
  | fails : ε → MuxRes ε
deriving DecidableEq

/-- One observable filesystem/substituter interaction of the multiplexer loop:
`remove_recursively_if_exists(into)` or querying a constituent. -/
inductive MuxOp (ε : Type) : Type where
  | removeInto : MuxOp ε
  | query : Constituent ε → MuxOp ε
deriving DecidableEq

/-- The loop body of `MultiplexingSubstituter::build_id_to_debug_output` (and
of `fetch_store_path`, which is line-for-line the same):  result starts as
`Ok(NotFound)`; each iteration removes `into` then queries the constituent;
`Found` returns immediately; an error overwrites the running result.  The
returned trace records the performed operations in order. -/
def muxLoop : List (Constituent ε) → MuxRes ε → MuxRes ε × List (MuxOp ε)
  | [], result => (result, [])
  | c :: rest, result =>
    match c.res with
    | SubRes.found => (MuxRes.found, [MuxOp.removeInto, MuxOp.query c])
    | SubRes.notFound =>
      let r := muxLoop rest result
      (r.1, MuxOp.removeInto :: MuxOp.query c :: r.2)
    | SubRes.fails e =>
      let r := muxLoop rest (MuxRes.fails e)
      (r.1, MuxOp.removeInto :: MuxOp.query c :: r.2)

/-- Model of `MultiplexingSubstituter::new` followed by one call to
`build_id_to_debug_output`: sorts the constituents by priority, then runs the
loop with initial result `Ok(NotFound)`. -/
def build_id_to_debug_output (cs : List (Constituent ε)) : MuxRes ε × List (MuxOp ε) :=
  muxLoop (sortByPrio cs) MuxRes.notFound

/-- Whether one constituent outcome is `Ok(Found)`. -/
def isFoundRes : SubRes ε → Bool
  | SubRes.found => true
  | _ => false

/-- The attempted constituents: everything up to and including the first one
answering `Found` (all of them when none does). -/
def takeThroughFound : List (Constituent ε) → List (Constituent ε)
  | [] => []
  | c :: t => if isFoundRes c.res then [c] else c :: takeThroughFound t

/-- The last error among the constituents' outcomes. -/
def lastErr : List (Constituent ε) → Option ε
  | [] => none
  | c :: t =>
    match lastErr t with
    | some e => some e
    | none => match c.res with
      | SubRes.fails e => some e
      | _ => none

/-- The result the spec claims for a (sorted) constituent list: `Found` if any
constituent finds the artifact, otherwise the last error if any, otherwise
`NotFound`. -/
def specMuxRes (l : List (Constituent ε)) : MuxRes ε :=
  if l.any (fun c => isFoundRes c.res) then MuxRes.found
  else match lastErr l with
    | some e => MuxRes.fails e
    | none => MuxRes.notFound

/-- The operation trace the spec claims: each attempted constituent is
preceded by a recursive removal of `into`, in order, stopping after the first
`Found`. -/
def specMuxOps (l : List (Constituent ε)) : List (MuxOp ε) :=
  (takeThroughFound l).foldr (fun c acc => MuxOp.removeInto :: MuxOp.query c :: acc) []

end Multiplex

/-! ## The cache fetch step (`src/cache.rs`, `FetcherCache::fetch`)

The filesystem state relevant to one key is the contents of `partial/<key>`
and `cache/<key>` (`none` = directory absent, `some d` = present with
contents `d`).  The fetcher is abstracted to its outcome and the contents it
leaves behind in `partial/<key>`. -/

section CacheFetch

variable {ν ε : Type}

/-- The `partial/<key>` and `cache/<key>` directories for one key. -/
structure KeyDirs (ν : Type) : Type where
  partDir : Option ν
  cacheDir : Option ν
deriving DecidableEq

/-- Model of `FetcherCache::fetch` under the per-key write lock:
remove any stale `partial/<key>`; run the fetcher (which writes `written`
into `partial/<key>`); on `Found` rename `partial/<key>` to `cache/<key>`
(modeled as failing if the source is absent or the target present), on
`NotFound` return `Ok(None)`, on error propagate it; finally remove
`partial/<key>` again.  The result error is `none` for a rename failure and
`some e` for a fetcher error `e`. -/
def FetcherCache.fetch (st : KeyDirs ν) (outcome : Except ε Presence) (written : Option ν) :
    Except (Option ε) (Option Unit) × KeyDirs ν :=
  let st2 : KeyDirs ν := { partDir := written, cacheDir := st.cacheDir }
  let step : Except (Option ε) (Option Unit) × KeyDirs ν :=
    match outcome with
    | Except.ok Presence.Found =>
      match st2.partDir, st2.cacheDir with
      | some d, none =>
        (Except.ok (some ()), { partDir := none, cacheDir := some d })
      | _, _ => (Except.error none, st2)
    | Except.ok Presence.NotFound => (Except.ok none, st2)
    | Except.error e => (Except.error (some e), st2)
  (step.1, { partDir := none, cacheDir := step.2.cacheDir })

end CacheFetch

/-! ## The restricted-path resolver (`src/vfs.rs`)

Absolute, symlink-free paths (`current_root`, `resolved_path`) are lists of
component names over an arbitrary type `α`.  The walked path
(`to_be_resolved`) may additionally contain `..` (and, defensively, `.`)
components.  The filesystem maps each absolute symlink-free path to `none`
(no such entry) or a node; transient I/O errors are not modeled.

The store-path branch abstracts `StorePath::new` composed with the
caller-supplied resolver into one function from the symlink target to either
an error (malformed store path or resolver failure), `Ok(None)`, or the
fetched artifact's root together with `store_path.relative()`. -/

section Vfs

variable {α : Type} [DecidableEq α]

/-- A component of a walked path as Rust's `components()` yields it for the
relative remainder of an absolute path (no root or Windows-style drive can
appear there; that arm of the code is `bail!("unreachable: ...")`). -/
inductive VComp (α : Type) : Type where
  | curDir : VComp α
  | parentDir : VComp α
  | normal : α → VComp α
deriving DecidableEq

/-- The value of a symlink: an absolute or relative target path.  The empty
target read by `read_link` is `relT []` (the code skips the push of an empty
target, which coincides with appending no components). -/
inductive VTarget (α : Type) : Type where
  | absT : List (VComp α) → VTarget α
  | relT : List (VComp α) → VTarget α
deriving DecidableEq

/-- A filesystem node as distinguished by `read_link` / `symlink_metadata`. -/
inductive VNode (α : Type) : Type where
  | file : VNode α
  | dir : VNode α
  | symlink : VTarget α → VNode α
deriving DecidableEq

/-- The filesystem: contents of each absolute symlink-free path. -/
def Fs (α : Type) : Type := List α → Option (VNode α)

/-- Combined model of `StorePath::new` on the symlink target followed by the
caller-supplied `resolver`: error, `Ok(None)`, or the fetched artifact's root
together with the store path's `relative()` part. -/
inductive ResolverOut (α : Type) : Type where
  | fails : ResolverOut α
  | missing : ResolverOut α
  | artifact : List α → List (VComp α) → ResolverOut α

/-- The abstract resolver parameter of `RestrictedPath::resolve`. -/
def Resolver (α : Type) : Type := List (VComp α) → ResolverOut α

/-- Errors `RestrictedPath::resolve` can report. -/
inductive RErr : Type where
  | depth : RErr
  | escaped : RErr
  | notDir : RErr
  | lstatErr : RErr
  | badComp : RErr
  | storeFail : RErr
deriving DecidableEq

/-- Result of `RestrictedPath::resolve`: error, `Ok(None)`, or
`Ok(Some(resolved))`. -/
inductive RRes (α : Type) : Type where
  | err : RErr → RRes α
  | missing : RRes α
  | resolved : List α → RRes α
deriving DecidableEq

/-- Result of one pass of the inner component loop: final resolved path, a
missing entry, an error, or a restart of the outer loop at a new
`to_be_resolved` (with the new `current_root` when a store artifact was
entered). -/
inductive InnerRes (α : Type) : Type where
  | done : List α → InnerRes α
  | missing : InnerRes α
  | err : RErr → InnerRes α
  | restart : List (VComp α) → Option (List α) → InnerRes α

/-- `new_target = popped resolved_path + readlink value` (an absolute target
replaces the base, as `PathBuf::push` does). -/
def pushTarget (base : List α) : VTarget α → List (VComp α)
  | VTarget.absT c => c
  | VTarget.relT c => base.map VComp.normal ++ c

/-- The inner `while let Some(component)` loop of `RestrictedPath::resolve`.
Before processing each component it checks `resolved_path.starts_with(current_root)`
(the check does not run again after the last component).  `..` requires the
current `resolved_path` to be a directory and pops it; a name is pushed and
`read_link` inspected: absent entry ends the walk with `Ok(None)`, a
non-symlink continues, a symlink pops the name, forms the new target plus the
remaining components, and restarts the outer loop (through the store-path
resolver when the target enters `/nix/store`). -/
def innerLoop (fs : Fs α) (res : Resolver α) (nixC : List α) (root : List α) :
    List α → List (VComp α) → InnerRes α
  | rPath, [] => InnerRes.done rPath
  | rPath, c :: rest =>
    if listLeads root rPath then
      match c with
      | VComp.curDir => innerLoop fs res nixC root rPath rest
      | VComp.parentDir =>
        match fs rPath with
        | some VNode.dir => innerLoop fs res nixC root rPath.dropLast rest
        | some _ => InnerRes.err RErr.notDir
        | none => InnerRes.err RErr.lstatErr
      | VComp.normal name =>
        let rPath2 := rPath ++ [name]
        match fs rPath2 with
        | none => InnerRes.missing
        | some VNode.file => innerLoop fs res nixC root rPath2 rest
        | some VNode.dir => innerLoop fs res nixC root rPath2 rest
        | some (VNode.symlink t) =>
          let tbr := pushTarget rPath t ++ rest
          if listLeads (nixC.map VComp.normal) tbr then
            match res tbr with
            | ResolverOut.fails => InnerRes.err RErr.storeFail
            | ResolverOut.missing => InnerRes.missing
            | ResolverOut.artifact root2 rel =>
              InnerRes.restart (root2.map VComp.normal ++ rel) (some root2)
          else InnerRes.restart tbr none
    else InnerRes.err RErr.escaped

/-- `MAX_SYMLINK_DEPTH = 20`. -/
def MAX_SYMLINK_DEPTH : Nat := 20

/-- The outer `'symlinks: loop` of `RestrictedPath::resolve`.  The code keeps
a `depth` counter starting at 0, incremented at each resolved symlink, and
bails with the depth error when `depth > MAX_SYMLINK_DEPTH` at the top of the
loop; here `fuel = MAX_SYMLINK_DEPTH + 1 - depth` counts down instead.  Each
iteration strips `current_root` off `to_be_resolved` (error when it is not a
component-wise prefix) and runs the inner loop over the remainder starting
from `resolved_path = current_root`. -/
def resolveLoop (fs : Fs α) (res : Resolver α) (nixC : List α) :
    Nat → List α → List (VComp α) → RRes α
  | 0, _, _ => RRes.err RErr.depth
  | fuel + 1, root, tbr =>
    if listLeads (root.map VComp.normal) tbr then
      match innerLoop fs res nixC root root (tbr.drop root.length) with
      | InnerRes.done p => RRes.resolved p
      | InnerRes.missing => RRes.missing
      | InnerRes.err e => RRes.err e
      | InnerRes.restart tbr2 newRoot =>
        resolveLoop fs res nixC fuel (newRoot.getD root) tbr2
    else RRes.err RErr.escaped

/-- A `RestrictedPath`: the escape boundary `root` (absolute, symlink-free)
and the absolute untrusted path `inner = root` extended by `join`s.  The lock
field carries no information relevant to resolution and is omitted. -/
structure RestrictedPath (α : Type) : Type where
  root : List α
  inner : List (VComp α)

/-- Model of `RestrictedPath::resolve`. -/
def RestrictedPath.resolve (fs : Fs α) (res : Resolver α) (nixC : List α)
    (rp : RestrictedPath α) : RRes α :=
  resolveLoop fs res nixC (MAX_SYMLINK_DEPTH + 1) rp.root rp.inner

end Vfs

/-! ## Concrete filesystems for the resolver claims -/

/-- A resolver that always errors, as `resolve_inside_root` supplies. -/
def failRes : Resolver Nat := fun _ => ResolverOut.fails

/-- Names of the `/nix/store` components, chosen not to collide with the
names used in the concrete filesystems below. -/
def nixNames : List Nat := [5, 6]

/-- A filesystem with a single directory `/0` (whose parent `/` exists but is
never consulted by the walk at issue). -/
def escapeFs : Fs Nat := fun p =>
  match p with
  | [0] => some VNode.dir
  | _ => none

/-- A chain of `n` symlinks under the directory `/0`: entry `1, …, n` is a
symlink to the next entry, entry `n + 1` is a regular file. -/
def chainFs (n : Nat) : Fs Nat := fun p =>
  match p with
  | [0] => some VNode.dir
  | [0, j] =>
    if 1 ≤ j ∧ j ≤ n then some (VNode.symlink (VTarget.relT [VComp.normal (j + 1)]))
    else if j = n + 1 then some VNode.file else none
  | _ => none

/-- A directory `/0` containing a symlink `/0/1` that points to itself. -/
def selfLoopFs : Fs Nat := fun p =>
  match p with
  | [0] => some VNode.dir
  | [0, 1] => some (VNode.symlink (VTarget.relT [VComp.normal 1]))
  | _ => none

/-! # Theorems -/

theorem listLeads_iff {β : Type} [DecidableEq β] (l₁ l₂ : List β) :
    listLeads l₁ l₂ = true ↔ l₁ <+: l₂ := by
  induction l₁ generalizing l₂ with
  | nil => simp [listLeads]
  | cons a as ih =>
    cases l₂ with
    | nil => simp [listLeads]
    | cons b bs =>
      simp only [listLeads, List.cons_prefix_cons]
      by_cases h : a = b
      · simp [h, ih]
      · simp [h]

theorem toLowerByte_idem (b : Nat) : toLowerByte (toLowerByte b) = toLowerByte b := by
  unfold toLowerByte
  split
  · rename_i h
    rw [if_neg (by omega)]
  · rfl

/-! ## C7: Build-ID parse/format round trip -/

/-- Helper: parsing a 40-character hex-digit string succeeds and stores it
unchanged. -/
theorem buildId_new_valid (s : List Nat) (hhex : s.all isAsciiHexDigitB = true)
    (hlen : s.length = 40) : BuildId.new s = some s := by
  have hany : (s.any fun c => !isAsciiHexDigitB c) = false := by
    rw [List.any_eq_false]
    intro c hc
    simp [List.all_eq_true.mp hhex c hc]
  unfold BuildId.new
  rw [hany]
  simp [hlen]

/-- C7 counterexample: the all-uppercase string `"AAAA…A"` (40 times `'A'`,
byte 65) is accepted by `BuildId::new`, but formatting the parsed value gives
the string back unchanged, not its lowercase form. -/
theorem buildId_roundtrip_counterexample :
    (BuildId.new (List.replicate 40 65)).map BuildId.format = some (List.replicate 40 65) ∧
    (BuildId.new (List.replicate 40 65)).map BuildId.format ≠
      some (toLowerStr (List.replicate 40 65)) := by decide

/-- C7 (amended): for every 40-character string of ASCII hex digits
(uppercase permitted), `BuildId::new` succeeds and formatting the parsed
value yields the input unchanged; it equals the lowercase form exactly when
the input is already lowercase. -/
theorem buildId_parse_format_id (s : List Nat) (hhex : s.all isAsciiHexDigitB = true)
    (hlen : s.length = 40) :
    (BuildId.new s).map BuildId.format = some s ∧
    ((BuildId.new s).map BuildId.format = some (toLowerStr s) ↔ toLowerStr s = s) := by
  rw [buildId_new_valid s hhex hlen]
  constructor
  · rfl
  · constructor
    · intro h
      simpa [BuildId.format] using h.symm
    · intro h
      simp [BuildId.format, h]

/-- Witness for C7 at the concrete lowercase-and-uppercase mixed input
`"aA…"`: 20 repetitions of `aA`. -/
theorem buildId_parse_format_id_witness :
    (BuildId.new (List.replicate 20 97 ++ List.replicate 20 65)).map BuildId.format =
      some (List.replicate 20 97 ++ List.replicate 20 65) :=
  (buildId_parse_format_id (List.replicate 20 97 ++ List.replicate 20 65)
    (by decide) (by decide)).1

/-! ## C6: `StorePath::new` acceptance -/

/-- C6 counterexample: the path `/nix/store/<32 × 'z'>-x` is accepted by
`StorePath::new` although `'z'` (byte 122) is not a hexadecimal digit, so the
fourth component does not have the `<32-hex-hash>-<suffix>` shape claimed. -/
theorem storePath_new_counterexample :
    (StorePath.new
        (nixStoreComps ++ [PathComp.normal (List.replicate 32 122 ++ [45, 120])])).isSome
      = true ∧
    specStoreNameOk (List.replicate 32 122 ++ [45, 120]) = false := by decide

/-- Helper: what a successful `StorePath::new` establishes. -/
theorem storePath_new_inv (p sp : List PathComp) (h : StorePath.new p = some sp) :
    sp = p ∧ listLeads nixStoreComps p = true ∧
      ∃ name, p[3]? = some (PathComp.normal name) ∧ HASH_LEN + 2 ≤ name.length ∧
        (name.take HASH_LEN).all isAsciiB = true := by
  unfold StorePath.new at h
  by_cases hl : listLeads nixStoreComps p
  · rw [if_pos hl] at h
    cases h3 : p[3]? with
    | none => rw [h3] at h; exact Option.noConfusion h
    | some c =>
      rw [h3] at h
      cases c with
      | normal name =>
        replace h : (if HASH_LEN + 2 ≤ name.length then
            if (name.take HASH_LEN).all isAsciiB = true then some p else none
          else none) = some sp := h
        split_ifs at h with h1 h2
        exact ⟨(Option.some_inj.mp h).symm, hl, name, rfl, h1, h2⟩
      | rootDir => exact Option.noConfusion h
      | curDir => exact Option.noConfusion h
      | parentDir => exact Option.noConfusion h
  · rw [if_neg hl] at h
    exact Option.noConfusion h

/-- C6 (amended): `StorePath::new(path)` succeeds exactly when `path` starts
(component-wise, hence in particular absolutely) with `/nix/store` and its
fourth component counting from the root is a normal name of byte-length at
least 34 whose first 32 bytes are ASCII; the hash bytes are not validated as
hexadecimal and no dash separator is required. -/
theorem storePath_new_characterization (p : List PathComp) :
    (StorePath.new p).isSome = true ↔
      (nixStoreComps <+: p ∧ ∃ name, p[3]? = some (PathComp.normal name) ∧
        HASH_LEN + 2 ≤ name.length ∧ (name.take HASH_LEN).all isAsciiB = true) := by
  constructor
  · intro h
    obtain ⟨sp, hsp⟩ := Option.isSome_iff_exists.mp h
    obtain ⟨-, hl, name, h3, h1, h2⟩ := storePath_new_inv p sp hsp
    exact ⟨(listLeads_iff _ _).mp hl, name, h3, h1, h2⟩
  · rintro ⟨hpre, name, h3, h1, h2⟩
    unfold StorePath.new
    rw [if_pos ((listLeads_iff _ _).mpr hpre), h3]
    simp [h1, h2]

/-- Witness for C6 at the concrete accepted path `/nix/store/<32 × 'a'>-x`. -/
theorem storePath_new_characterization_witness :
    (StorePath.new
        (nixStoreComps ++ [PathComp.normal (List.replicate 32 97 ++ [45, 120])])).isSome
      = true :=
  (storePath_new_characterization _).mpr
    ⟨by decide, List.replicate 32 97 ++ [45, 120], by decide, by decide, by decide⟩

/-! ## C8: source selection -/

section SourceSelectionProofs

variable {α : Type} [DecidableEq α]

theorem firstNe_none_iff (as : List α) :
    ∀ bs, firstNe as bs = none ↔ (as <+: bs ∨ bs <+: as) := by
  induction as with
  | nil =>
    intro bs
    simp [firstNe]
  | cons a as ih =>
    intro bs
    cases bs with
    | nil => simp [firstNe]
    | cons b bs =>
      by_cases h : a = b
      · subst h
        simp [firstNe, Option.map_eq_none', ih bs, List.cons_prefix_cons]
      · simp [firstNe, h, List.cons_prefix_cons]
        exact fun hba _ => h hba.symm

theorem firstNe_some (as : List α) :
    ∀ bs, ¬(as <+: bs ∨ bs <+: as) → firstNe as bs = some (agreeFwd as bs) := by
  induction as with
  | nil =>
    intro bs h
    exact absurd (Or.inl (List.nil_prefix)) h
  | cons a as ih =>
    intro bs h
    cases bs with
    | nil => exact absurd (Or.inr (List.nil_prefix)) h
    | cons b bs =>
      by_cases hab : a = b
      · subst hab
        have h2 : ¬(as <+: bs ∨ bs <+: as) := by
          intro hc
          exact h (by simpa [List.cons_prefix_cons] using hc)
        simp [firstNe, agreeFwd, ih bs h2]
      · simp [firstNe, agreeFwd, hab]

/-- Amended description of `matching_measure`: when one of the two paths is a
suffix of the other, the measure is the candidate's full length; otherwise it
is the number of trailing components on which they agree. -/
theorem matching_measure_eq (c r : List α) :
    matching_measure c r =
      if c <:+ r ∨ r <:+ c then c.length else specMeasure c r := by
  unfold matching_measure specMeasure
  by_cases h : c <:+ r ∨ r <:+ c
  · rw [if_pos h]
    have hp : c.reverse <+: r.reverse ∨ r.reverse <+: c.reverse := by
      rcases h with h | h
      · exact Or.inl (List.reverse_prefix.mpr h)
      · exact Or.inr (List.reverse_prefix.mpr h)
    rw [(firstNe_none_iff _ _).mpr hp]
    rfl
  · rw [if_neg h]
    have hp : ¬(c.reverse <+: r.reverse ∨ r.reverse <+: c.reverse) := by
      intro hc
      rcases hc with hc | hc
      · exact h (Or.inl (List.reverse_prefix.mp hc))
      · exact h (Or.inr (List.reverse_prefix.mp hc))
    rw [firstNe_some _ _ hp]
    rfl

theorem listMax_foldl_facts (l : List Nat) :
    ∀ a, a ≤ l.foldl Nat.max a ∧ (∀ x ∈ l, x ≤ l.foldl Nat.max a) ∧
      (l.foldl Nat.max a = a ∨ l.foldl Nat.max a ∈ l) := by
  induction l with
  | nil => intro a; exact ⟨Nat.le_refl a, by simp, Or.inl rfl⟩
  | cons x xs ih =>
    intro a
    obtain ⟨h1, h2, h3⟩ := ih (Nat.max a x)
    refine ⟨Nat.le_trans (Nat.le_max_left a x) h1, ?_, ?_⟩
    · intro y hy
      rcases List.mem_cons.mp hy with rfl | hy
      · exact Nat.le_trans (Nat.le_max_right a y) h1
      · exact h2 y hy
    · rcases h3 with h3 | h3
      · rcases Nat.le_total a x with hm | hm
        · have hmx : Nat.max a x = x := Nat.max_eq_right hm
          exact Or.inr (by rw [List.foldl_cons, h3, hmx]; exact List.mem_cons_self x xs)
        · have hmx : Nat.max a x = a := Nat.max_eq_left hm
          exact Or.inl (by rw [List.foldl_cons, h3, hmx])
      · exact Or.inr (List.mem_cons_of_mem x h3)

theorem listMax_spec (l : List Nat) (m : Nat) (h : listMax l = some m) :
    m ∈ l ∧ ∀ x ∈ l, x ≤ m := by
  cases l with
  | nil => cases h
  | cons x xs =>
    obtain ⟨h1, h2, h3⟩ := listMax_foldl_facts xs x
    have hm : m = xs.foldl Nat.max x := (Option.some_inj.mp h).symm
    subst hm
    refine ⟨?_, ?_⟩
    · rcases h3 with h3 | h3
      · rw [h3]; exact List.mem_cons_self x xs
      · exact List.mem_cons_of_mem x h3
    · intro y hy
      rcases List.mem_cons.mp hy with rfl | hy
      · exact h1
      · exact h2 y hy

omit [DecidableEq α] in
theorem filterMap_if_eq_filter (p : α → Prop) [DecidablePred p] (l : List α) :
    l.filterMap (fun c => if p c then some c else none) = l.filter (fun c => decide (p c)) := by
  induction l with
  | nil => rfl
  | cons x xs ih =>
    by_cases h : p x
    · simp [List.filterMap_cons, List.filter_cons, h, ih]
    · simp [List.filterMap_cons, List.filter_cons, h, ih]

theorem best_matching_measure_aux (cands : List (List α)) (ref : List α) :
    best_matching_measure cands ref =
      match listMax (cands.map (fun c => matching_measure c ref)) with
      | none => Except.ok none
      | some best =>
        match cands.filter (fun c => decide (matching_measure c ref = best)) with
        | [e] => Except.ok (some e)
        | es => Except.error es := by
  simp only [best_matching_measure, List.map_map]
  have h1 : ((fun mc : Nat × List α => mc.1) ∘ fun c => (matching_measure c ref, c)) =
      fun c => matching_measure c ref := rfl
  rw [h1]
  cases hbest : listMax (cands.map fun c => matching_measure c ref) with
  | none => rfl
  | some best =>
    dsimp only
    rw [List.filterMap_map]
    have h2 : ((fun mc : Nat × List α => if mc.1 = best then some mc.2 else none) ∘
        fun c => (matching_measure c ref, c)) =
        fun c => if matching_measure c ref = best then some c else none := rfl
    rw [h2, filterMap_if_eq_filter]

/-- The selection step of `best_matching_measure` agrees with the spec's
description: the (nonstrictly) best-measure candidates are computed, a unique
one wins, any tie is an ambiguity error naming all tied candidates. -/
theorem best_matching_measure_eq_spec (cands : List (List α)) (ref : List α) :
    best_matching_measure cands ref = specBest cands ref := by
  rw [best_matching_measure_aux]
  cases cands with
  | nil => rfl
  | cons c0 cs =>
    cases hbest : listMax ((c0 :: cs).map fun c => matching_measure c ref) with
    | none => simp [listMax] at hbest
    | some m =>
      obtain ⟨hmem, hle⟩ := listMax_spec _ _ hbest
      have hcong : (c0 :: cs).filter (fun c => decide (matching_measure c ref = m)) =
          (c0 :: cs).filter (fun c => (c0 :: cs).all
            (fun d => decide (matching_measure d ref ≤ matching_measure c ref))) := by
        apply List.filter_congr
        intro c hc
        rw [Bool.eq_iff_iff]
        simp only [decide_eq_true_eq, List.all_eq_true]
        constructor
        · intro hcm d hd
          rw [hcm]
          exact hle _ (List.mem_map.mpr ⟨d, hd, rfl⟩)
        · intro hall
          have hub : matching_measure c ref ≤ m := hle _ (List.mem_map.mpr ⟨c, hc, rfl⟩)
          obtain ⟨d, hd, hdm⟩ := List.mem_map.mp hmem
          have hlb : m ≤ matching_measure c ref := by
            rw [← hdm]
            exact hall d hd
          omega
      dsimp only
      rw [hcong]
      rfl

end SourceSelectionProofs

/-- C8 counterexample: for candidate `a/b` and reference `b` (components `1,
2` and `2`), the code's measure is `2` — the zipped comparison runs out of
reference components without a mismatch, so the candidate's full length is
returned — while the number of trailing components on which the two paths
agree is `1`, and `a/b` is not a suffix of `b`, so the spec's cap clause does
not apply. -/
theorem matching_measure_counterexample :
    matching_measure ([1, 2] : List Nat) [2] = 2 ∧
    specMeasure ([1, 2] : List Nat) [2] = 1 ∧
    ¬(([1, 2] : List Nat) <:+ [2]) := by decide

/-- C8 (amended): the match-measure equals the number of trailing components
on which candidate and reference agree, except that when either path is
entirely a suffix of the other (in particular when the reference is a strict
suffix of the candidate) it is `len(C)`; the best-measure candidate is
picked, and any tie among best candidates is an ambiguity error naming all
tied candidates. -/
theorem source_selection_spec :
    (∀ c r : List Nat, matching_measure c r =
      if c <:+ r ∨ r <:+ c then c.length else specMeasure c r) ∧
    (∀ (cands : List (List Nat)) (ref : List Nat),
      best_matching_measure cands ref = specBest cands ref) :=
  ⟨fun c r => matching_measure_eq c r, fun cands ref => best_matching_measure_eq_spec cands ref⟩

/-! ## C4: the multiplexing substituter -/

section MultiplexProofs

variable {ε : Type}

theorem insertByPrio_perm (c : Constituent ε) (l : List (Constituent ε)) :
    (insertByPrio c l).Perm (c :: l) := by
  induction l with
  | nil => exact List.Perm.refl _
  | cons d t ih =>
    unfold insertByPrio
    by_cases h : prioVal d.prio ≤ prioVal c.prio
    · rw [if_pos h]
      exact (List.Perm.cons d ih).trans (List.Perm.swap c d t)
    · rw [if_neg h]

theorem sortByPrio_perm (l : List (Constituent ε)) : (sortByPrio l).Perm l := by
  induction l with
  | nil => exact List.Perm.refl _
  | cons c t ih => exact (insertByPrio_perm c (sortByPrio t)).trans (List.Perm.cons c ih)

theorem insertByPrio_pairwise (c : Constituent ε) (l : List (Constituent ε))
    (h : l.Pairwise (fun a b => prioVal a.prio ≤ prioVal b.prio)) :
    (insertByPrio c l).Pairwise (fun a b => prioVal a.prio ≤ prioVal b.prio) := by
  induction l with
  | nil => simp [insertByPrio]
  | cons d t ih =>
    rw [List.pairwise_cons] at h
    obtain ⟨hd, ht⟩ := h
    unfold insertByPrio
    by_cases hc : prioVal d.prio ≤ prioVal c.prio
    · rw [if_pos hc, List.pairwise_cons]
      refine ⟨?_, ih ht⟩
      intro x hx
      rcases List.mem_cons.mp ((insertByPrio_perm c t).mem_iff.mp hx) with rfl | hx'
      · exact hc
      · exact hd x hx'
    · rw [if_neg hc, List.pairwise_cons]
      refine ⟨?_, List.pairwise_cons.mpr ⟨hd, ht⟩⟩
      intro x hx
      rcases List.mem_cons.mp hx with rfl | hx'
      · omega
      · exact Nat.le_trans (by omega) (hd x hx')

theorem sortByPrio_pairwise (l : List (Constituent ε)) :
    (sortByPrio l).Pairwise (fun a b => prioVal a.prio ≤ prioVal b.prio) := by
  induction l with
  | nil => exact List.Pairwise.nil
  | cons c t ih => exact insertByPrio_pairwise c (sortByPrio t) ih

theorem muxLoop_eq (l : List (Constituent ε)) :
    ∀ acc, muxLoop l acc =
      ((if l.any (fun c => isFoundRes c.res) then MuxRes.found
        else match lastErr l with
          | some e => MuxRes.fails e
          | none => acc), specMuxOps l) := by
  induction l with
  | nil => intro acc; rfl
  | cons c t ih =>
    intro acc
    have hops : isFoundRes c.res = false →
        specMuxOps (c :: t) = MuxOp.removeInto :: MuxOp.query c :: specMuxOps t := by
      intro hres
      simp [specMuxOps, takeThroughFound, hres]
    cases hres : c.res with
    | found =>
      simp [muxLoop, hres, specMuxOps, takeThroughFound, isFoundRes]
    | notFound =>
      have hlast : lastErr (c :: t) = lastErr t := by
        show (match lastErr t with
          | some e => some e
          | none => match c.res with
            | SubRes.fails e => some e
            | _ => none) = lastErr t
        rw [hres]
        cases lastErr t <;> rfl
      have hany : (c :: t).any (fun x => isFoundRes x.res) = t.any (fun x => isFoundRes x.res) := by
        simp [hres, isFoundRes]
      simp only [muxLoop, hres]
      rw [ih acc, hany, hlast, hops (by rw [hres]; rfl)]
    | fails e =>
      have hlast : lastErr (c :: t) = (match lastErr t with
          | some e' => some e'
          | none => some e) := by
        show (match lastErr t with
          | some e' => some e'
          | none => match c.res with
            | SubRes.fails e' => some e'
            | _ => none) = _
        rw [hres]
      have hany : (c :: t).any (fun x => isFoundRes x.res) = t.any (fun x => isFoundRes x.res) := by
        simp [hres, isFoundRes]
      simp only [muxLoop, hres]
      rw [ih (MuxRes.fails e), hany, hlast, hops (by rw [hres]; rfl)]
      by_cases hf : t.any (fun x => isFoundRes x.res) = true
      · simp [hf]
      · simp only [Bool.not_eq_true] at hf
        cases hlt : lastErr t <;> simp [hf, hlt]

end MultiplexProofs

/-- C4: the multiplexer tries its constituents sorted ascending by priority
(the sort is a permutation of the input), removes the target directory
recursively before each attempt, stops at the first `Found` (later
constituents are never queried), and otherwise returns the last error if any
constituent errored and `NotFound` else. -/
theorem multiplex_contract (cs : List (Constituent Nat)) :
    (sortByPrio cs).Pairwise (fun a b => prioVal a.prio ≤ prioVal b.prio) ∧
    (sortByPrio cs).Perm cs ∧
    build_id_to_debug_output cs = (specMuxRes (sortByPrio cs), specMuxOps (sortByPrio cs)) := by
  refine ⟨sortByPrio_pairwise cs, sortByPrio_perm cs, ?_⟩
  show muxLoop (sortByPrio cs) MuxRes.notFound = _
  rw [muxLoop_eq (sortByPrio cs) MuxRes.notFound]
  rfl

/-! ## C3: a failed fetch publishes nothing -/

/-- C3: when the fetcher returns `NotFound` or an error, `FetcherCache::fetch`
leaves `cache/<key>` unchanged and removes `partial/<key>`, propagating
`NotFound` as `Ok(None)` and the error as an error; the cache directory can
only change when the fetcher returned `Found` (the rename is performed only
then). -/
theorem fetch_failure_publishes_nothing :
    ∀ (st : KeyDirs Nat) (outcome : Except Nat Presence) (written : Option Nat),
      ((FetcherCache.fetch st outcome written).2.cacheDir ≠ st.cacheDir →
        outcome = Except.ok Presence.Found) ∧
      (outcome ≠ Except.ok Presence.Found →
        (FetcherCache.fetch st outcome written).2.cacheDir = st.cacheDir ∧
        (FetcherCache.fetch st outcome written).2.partDir = none ∧
        (outcome = Except.ok Presence.NotFound →
          (FetcherCache.fetch st outcome written).1 = Except.ok none) ∧
        ∀ e, outcome = Except.error e →
          (FetcherCache.fetch st outcome written).1 = Except.error (some e)) := by
  intro st outcome written
  cases outcome with
  | ok pr =>
    cases pr with
    | Found => exact ⟨fun _ => rfl, fun h => absurd rfl h⟩
    | NotFound =>
      exact ⟨fun h => absurd rfl h, fun _ => ⟨rfl, rfl, fun _ => rfl, fun e he => by cases he⟩⟩
  | error e0 =>
    refine ⟨fun h => absurd rfl h, fun _ => ⟨rfl, rfl, ?_, ?_⟩⟩
    · intro he
      cases he
    · intro e he
      cases he
      rfl

/-- Witness for C3 at a concrete state and a failing fetcher. -/
theorem fetch_failure_publishes_nothing_witness :
    (FetcherCache.fetch (KeyDirs.mk (some 1) (some 2)) (Except.error (7 : Nat))
        (some (3 : Nat))).2.cacheDir = some 2 ∧
    (FetcherCache.fetch (KeyDirs.mk (some 1) (some 2)) (Except.error (7 : Nat))
        (some (3 : Nat))).2.partDir = none ∧
    (FetcherCache.fetch (KeyDirs.mk (some 1) (some 2)) (Except.error (7 : Nat))
        (some (3 : Nat))).1 = Except.error (some 7) := by
  have h := (fetch_failure_publishes_nothing (KeyDirs.mk (some 1) (some 2))
    (Except.error 7) (some 3)).2 (fun hx => Except.noConfusion hx)
  exact ⟨h.1, h.2.1, h.2.2.2 7 rfl⟩

/-! ## C1 and C5: the restricted-path resolver -/

/-- `chainFs` evaluated at a two-component path. -/
theorem chainFs_pair (n j : Nat) : chainFs n [0, j] =
    if 1 ≤ j ∧ j ≤ n then some (VNode.symlink (VTarget.relT [VComp.normal (j + 1)]))
    else if j = n + 1 then some VNode.file else none := rfl

/-- One inner pass over the single remaining component `k + 1` below root
`/0`, for an arbitrary filesystem: the walk only consults `fs [0, k + 1]`. -/
theorem innerLoop_chain_lookup (fs : Fs Nat) (k : Nat) :
    innerLoop fs failRes nixNames [0] [0] [VComp.normal (k + 1)] =
      (match fs [0, k + 1] with
      | none => InnerRes.missing
      | some VNode.file => InnerRes.done [0, k + 1]
      | some VNode.dir => InnerRes.done [0, k + 1]
      | some (VNode.symlink t) =>
        if listLeads (nixNames.map VComp.normal) (pushTarget [0] t ++ []) then
          InnerRes.err RErr.storeFail
        else InnerRes.restart (pushTarget [0] t ++ []) none) := by
  cases hfs : fs [0, k + 1] with
  | none => simp [innerLoop, listLeads, hfs]
  | some node =>
    cases node with
    | file => simp [innerLoop, listLeads, hfs]
    | dir => simp [innerLoop, listLeads, hfs]
    | symlink t => simp [innerLoop, listLeads, hfs, failRes]

/-- Walking the `n`-symlink chain from link `k + 1` with `fuel` outer
iterations left reaches the final file when enough fuel remains. -/
theorem chain_loop_run (n : Nat) :
    ∀ fuel k, k ≤ n → n - k < fuel →
      resolveLoop (chainFs n) failRes nixNames fuel [0]
        [VComp.normal 0, VComp.normal (k + 1)] = RRes.resolved [0, n + 1] := by
  intro fuel
  induction fuel with
  | zero =>
    intro k hk hf
    omega
  | succ f ih =>
    intro k hk hf
    simp only [resolveLoop, List.map_cons, List.map_nil, List.length_cons, List.length_nil,
      List.drop_succ_cons, List.drop_zero]
    rw [show listLeads [VComp.normal 0] [VComp.normal 0, VComp.normal (k + 1)] = true from rfl]
    rw [if_pos rfl]
    rw [innerLoop_chain_lookup (chainFs n) k, chainFs_pair]
    by_cases hkn : k < n
    · rw [if_pos ⟨by omega, by omega⟩]
      show resolveLoop (chainFs n) failRes nixNames f [0]
        [VComp.normal 0, VComp.normal (k + 1 + 1)] = RRes.resolved [0, n + 1]
      have := ih (k + 1) (by omega) (by omega)
      rw [show k + 1 + 1 = k + 2 from rfl] at this ⊢
      exact this
    · have hkeq : k = n := by omega
      subst hkeq
      rw [if_neg (by omega), if_pos rfl]

/-- C1 (code-bug demonstration): with root `/0` a directory, resolving the
restricted path `/0/..` (that is, `root.join("..")`) returns
`Ok(Some("/"))` — the walk checks `resolved_path.starts_with(current_root)`
only before each component, so a trailing `..` pops above the root and the
result is returned unchecked.  The returned path `/` (the empty component
list) does not lie under the root `/0`: the claimed escape-freedom fails. -/
theorem resolve_trailing_parentdir_escape :
    RestrictedPath.resolve escapeFs failRes nixNames
        (RestrictedPath.mk [0] [VComp.normal 0, VComp.parentDir]) = RRes.resolved [] ∧
    listLeads ([0] : List Nat) [] = false := by decide

/-- C5: `resolve` follows at most `MAX_SYMLINK_DEPTH = 20` symlinks: a chain
of `n ≤ 20` symlinks is walked to completion, a chain of 21 symlinks fails
with the depth error, and a self-referential symlink fails with the depth
error.  (`resolve` is a total function of the model by construction, so
termination holds unconditionally.) -/
theorem resolve_symlink_depth_cap :
    (∀ n, n ≤ 20 →
      RestrictedPath.resolve (chainFs n) failRes nixNames
          (RestrictedPath.mk [0] [VComp.normal 0, VComp.normal 1]) =
        RRes.resolved [0, n + 1]) ∧
    RestrictedPath.resolve (chainFs 21) failRes nixNames
        (RestrictedPath.mk [0] [VComp.normal 0, VComp.normal 1]) = RRes.err RErr.depth ∧
    RestrictedPath.resolve selfLoopFs failRes nixNames
        (RestrictedPath.mk [0] [VComp.normal 0, VComp.normal 1]) = RRes.err RErr.depth := by
  refine ⟨fun n hn => ?_, by decide, by decide⟩
  have := chain_loop_run n (MAX_SYMLINK_DEPTH + 1) 0 (by omega)
    (by unfold MAX_SYMLINK_DEPTH; omega)
  exact this

/-- Witness for C5 at the longest admissible chain, `n = 20`. -/
theorem resolve_symlink_depth_cap_witness :
    RestrictedPath.resolve (chainFs 20) failRes nixNames
        (RestrictedPath.mk [0] [VComp.normal 0, VComp.normal 1]) = RRes.resolved [0, 21] :=
  resolve_symlink_depth_cap.1 20 (by decide)

/-! ## C10: totality of the derived accessors under the parse precondition -/

/-- C10: under the respective parse preconditions the derived accessors are
total: `BuildId::in_debug_output`'s slicings at index 2 stay in bounds,
`StorePath::name`'s `unreachable!()` arm is dead, `StorePath::hash`'s 32-byte
slice and UTF-8 unwrap cannot fail, and `StorePath::relative`'s two
`strip_prefix` unwraps cannot panic. -/
theorem parsed_accessors_total :
    (∀ s b, BuildId.new s = some b → ∀ ext, (BuildId.in_debug_output b ext).isSome = true) ∧
    (∀ p sp, StorePath.new p = some sp →
      (StorePath.name sp).isSome = true ∧ (StorePath.hash sp).isSome = true ∧
        (StorePath.relative sp).isSome = true) := by
  constructor
  · intro s b h ext
    have hb : b = s ∧ s.length = 40 := by
      unfold BuildId.new at h
      split_ifs at h with h1 h2
      exact ⟨(Option.some_inj.mp h).symm, by omega⟩
    obtain ⟨rfl, hlen⟩ := hb
    unfold BuildId.in_debug_output strSlice
    rw [if_pos (by omega), if_pos (by omega)]
    rfl
  · intro p sp h
    obtain ⟨hsp, hl, name, h3, h1, h2⟩ := storePath_new_inv p sp h
    subst hsp
    have hname : StorePath.name sp = some name := by
      unfold StorePath.name
      rw [h3]
    refine ⟨by simp [hname], ?_, ?_⟩
    · unfold StorePath.hash
      rw [hname]
      show (if HASH_LEN ≤ name.length ∧ (List.take HASH_LEN name).all isAsciiB = true then
          some (List.take HASH_LEN name) else none).isSome = true
      rw [if_pos ⟨by omega, h2⟩]
      rfl
    · unfold StorePath.relative stripComps
      rw [if_pos hl, hname]
      obtain ⟨hlt, hget⟩ := List.getElem?_eq_some.mp h3
      have hdrop : sp.drop 3 = PathComp.normal name :: sp.drop 4 := by
        rw [List.drop_eq_getElem_cons hlt, hget]
      have h33 : nixStoreComps.length = 3 := rfl
      rw [h33, hdrop]
      simp [listLeads]

/-! ## C9: `demangle` -/

theorem lowerFrom_length (p : List Nat) : ∀ i, (lowerFrom i p).length = p.length := by
  induction p with
  | nil => intro i; rfl
  | cons b t ih => intro i; simp [lowerFrom, ih]

theorem lowerFrom_get (p : List Nat) :
    ∀ i j, (lowerFrom i p)[j]? =
      (p[j]?).map (fun b => if 11 ≤ i + j ∧ i + j < 43 then toLowerByte b else b) := by
  induction p with
  | nil => intro i j; rfl
  | cons b t ih =>
    intro i j
    cases j with
    | zero => simp [lowerFrom]
    | succ j =>
      simp only [lowerFrom, List.getElem?_cons_succ, ih (i + 1) j]
      have : i + 1 + j = i + (j + 1) := by omega
      rw [this]

theorem lowerFrom_take (p : List Nat) :
    ∀ i m, i + m ≤ 11 → (lowerFrom i p).take m = p.take m := by
  induction p with
  | nil => intro i m _; rfl
  | cons b t ih =>
    intro i m hm
    cases m with
    | zero => rfl
    | succ m =>
      simp only [lowerFrom, List.take_succ_cons]
      rw [if_neg (by omega), ih (i + 1) m (by omega)]

theorem bStartsStore_lowerFrom (p : List Nat) : bStartsStore (lowerFrom 0 p) = bStartsStore p := by
  have hlen : nixStoreBytes.length = 10 := rfl
  have hpre : nixStoreBytes.isPrefixOf (lowerFrom 0 p) = nixStoreBytes.isPrefixOf p := by
    rw [Bool.eq_iff_iff, List.isPrefixOf_iff_prefix, List.isPrefixOf_iff_prefix,
      List.prefix_iff_eq_take, List.prefix_iff_eq_take, hlen,
      lowerFrom_take p 0 10 (by omega)]
  have hg : (lowerFrom 0 p)[10]? = p[10]? := by
    rw [lowerFrom_get p 0 10]
    have hc : ¬(11 ≤ 0 + 10 ∧ 0 + 10 < 43) := by omega
    cases p[10]? with
    | none => rfl
    | some b => simp [hc]
  unfold bStartsStore
  rw [hpre, hg, lowerFrom_length]

theorem lowerFrom_idem (p : List Nat) : lowerFrom 0 (lowerFrom 0 p) = lowerFrom 0 p := by
  apply List.ext_getElem?
  intro j
  rw [lowerFrom_get, lowerFrom_get]
  cases p[j]? with
  | none => rfl
  | some b =>
    simp only [Option.map_some']
    by_cases h : 11 ≤ j ∧ j < 43
    · have h0 : 11 ≤ 0 + j ∧ 0 + j < 43 := by omega
      rw [if_pos h0, if_pos h0, toLowerByte_idem]
    · have h0 : ¬(11 ≤ 0 + j ∧ 0 + j < 43) := by omega
      rw [if_neg h0, if_neg h0]

/-- C9: `demangle` is idempotent; it is the identity on non-store paths and
on store paths whose bytes in the hash window `[11, 43)` carry no ASCII
uppercase letter (in particular on already-lowercase hashes); on a store path
it lowercases exactly the bytes in that window, clamped to the path's length,
and leaves every other byte unchanged. -/
theorem demangle_spec :
    (∀ p : List Nat, demangle (demangle p) = demangle p) ∧
    (∀ p : List Nat, bStartsStore p = true →
      ((p.drop 11).take 32).all (fun b => toLowerByte b == b) = true → demangle p = p) ∧
    (∀ p : List Nat, bStartsStore p = false → demangle p = p) ∧
    (∀ p : List Nat, (demangle p).length = p.length ∧
      ∀ j, (demangle p)[j]? =
        if bStartsStore p = true ∧ 11 ≤ j ∧ j < 43 then (p[j]?).map toLowerByte
        else p[j]?) := by
  refine ⟨?_, ?_, ?_, ?_⟩
  · intro p
    unfold demangle
    by_cases hs : bStartsStore p
    · rw [if_pos hs, if_pos (bStartsStore_lowerFrom p ▸ hs), lowerFrom_idem]
    · rw [if_neg hs, if_neg hs]
  · intro p hs hlow
    have hlow' : ∀ j b, 11 ≤ j → j < 43 → p[j]? = some b → toLowerByte b = b := by
      intro j b h11 h43 hj
      have hmem : b ∈ (p.drop 11).take 32 := by
        have hg : ((p.drop 11).take 32)[j - 11]? = some b := by
          rw [List.getElem?_take_of_lt (by omega), List.getElem?_drop,
            show 11 + (j - 11) = j by omega]
          exact hj
        exact List.getElem?_mem hg
      have := List.all_eq_true.mp hlow b hmem
      exact beq_iff_eq.mp this
    unfold demangle
    rw [if_pos hs]
    apply List.ext_getElem?
    intro j
    rw [lowerFrom_get]
    cases hj : p[j]? with
    | none => rfl
    | some b =>
      simp only [Option.map_some']
      by_cases h : 11 ≤ 0 + j ∧ 0 + j < 43
      · rw [if_pos h, hlow' j b (by omega) (by omega) hj]
      · rw [if_neg h]
  · intro p hs
    unfold demangle
    rw [if_neg (by simp [hs])]
  · intro p
    unfold demangle
    by_cases hs : bStartsStore p
    · refine ⟨by rw [if_pos hs, lowerFrom_length], ?_⟩
      intro j
      rw [if_pos hs, lowerFrom_get]
      by_cases h : 11 ≤ j ∧ j < 43
      · rw [if_pos ⟨hs, h⟩]
        cases p[j]? with
        | none => rfl
        | some b => simp only [Option.map_some']; rw [if_pos (by omega)]
      · rw [if_neg (by intro hc; exact h ⟨hc.2.1, hc.2.2⟩)]
        cases p[j]? with
        | none => rfl
        | some b => simp only [Option.map_some']; rw [if_neg (by omega)]
    · refine ⟨by rw [if_neg hs], ?_⟩
      intro j
      rw [if_neg hs, if_neg (by intro hc; exact hs hc.1)]

/-- Witness for C9: `demangle` at the test vector from the source, the
mangled path `/nix/store/JW65XNML1FGF4BFGZGISZCK3LFJWXG6L-GCC-12.3.0`, is
settled by the pointwise description; here we instantiate the
identity-on-lowercase part at the already-lowercase spelling. -/
theorem demangle_spec_witness :
    demangle (bytesOf "/nix/store/jw65xnml1fgf4bfgzgiszck3lfjwxg6l-gcc-12.3.0") =
      bytesOf "/nix/store/jw65xnml1fgf4bfgzgiszck3lfjwxg6l-gcc-12.3.0" :=
  demangle_spec.2.1 (bytesOf "/nix/store/jw65xnml1fgf4bfgzgiszck3lfjwxg6l-gcc-12.3.0")
    (by decide) (by decide)

/-- Witness for C10 at a concrete Build-ID and store path. -/
theorem parsed_accessors_total_witness :
    (BuildId.in_debug_output (List.replicate 40 97) (bytesOf "debug")).isSome = true ∧
    (StorePath.relative
        (nixStoreComps ++ [PathComp.normal (List.replicate 32 97 ++ [45, 120])])).isSome
      = true := by
  constructor
  · exact parsed_accessors_total.1 (List.replicate 40 97) (List.replicate 40 97)
      (by decide) (bytesOf "debug")
  · exact (parsed_accessors_total.2
      (nixStoreComps ++ [PathComp.normal (List.replicate 32 97 ++ [45, 120])])
      (nixStoreComps ++ [PathComp.normal (List.replicate 32 97 ++ [45, 120])])
      (by decide)).2.2

end Nsdi

